import Mathlib

/-!
Verification of the BEEFY gadget core (grandpa-bridge-gadget) against its
natural-language specification.

The development shallowly embeds the Rust sources:
  * `beefy-merkle-root/src/lib.rs`  — binary Merkle tree (root / proof / verify),
  * `beefy-gadget/src/round.rs`     — round tracker (votes, threshold, drop),
  * `beefy-gadget/src/worker.rs`    — vote cadence (`vote_candidate`, `should_vote_on`),
  * `beefy-light-client/src/client.rs` — signed-commitment import.

Byte strings are `List Nat`; machine integers (`u32`, `u64`, `usize`) are `Nat`
(all subtractions in the sources are saturating or guarded, matching truncated
`Nat` subtraction).  The Rust code is generic over the hasher (`H: Hasher`), so
the embedding takes the hash function as an explicit argument `H : Bytes → Bytes`;
Keccak-256 is one instance.  Cryptographic signature verification
(`Keyring::verify`, not part of the sources) is likewise an abstract argument.
-/

/-- Arbitrary-length byte string (each entry one byte). -/
abbrev Bytes := List Nat

/-- The all-zero 32-byte hash, `Hash::default()` in the source. -/
def zeroHash : Bytes := List.replicate 32 0

/-!
## Binary Merkle tree (`beefy-merkle-root/src/lib.rs`)

`merkelize_row` / `merkelize` in the source are generic over a `Visitor`.
They are instantiated twice: with the unit visitor `()` (for `merkle_root`)
and with the `ProofCollection` visitor (for `merkle_proof`).  The embedding
spells out both instantiations: the `…Row`/`levelsPlain` functions below are
the unit-visitor instance and `…RowPC`/`levelsPC` the `ProofCollection`
instance.  The `Vec`-returning iterator loop of `merkelize` is rendered as
fuel-indexed recursion; `row.length` fuel is enough, since every level at
least halves the row (`merkelize` never observes fuel exhaustion).
-/

/-- The `ProofCollection` visitor state: collected proof items plus the
position of the tracked leaf in the current row. -/
structure PC where
  proof : List Bytes
  position : Nat
  deriving Repr, DecidableEq

/-- `ProofCollection::visit`: if we are at the left branch (`position == index`)
the right sibling goes to the proof; at the right branch (`position == index + 1`)
the left sibling goes to the proof. -/
def pcVisit (pc : PC) (index : Nat) (left right : Option Bytes) : PC :=
  let pc1 :=
    if pc.position = index then
      match right with
      | some r => { pc with proof := pc.proof ++ [r] }
      | none => pc
    else pc
  if pc1.position = index + 1 then
    match left with
    | some l => { pc1 with proof := pc1.proof ++ [l] }
    | none => pc1
  else pc1

/-- `ProofCollection::move_up`: `position /= 2`. -/
def moveUp (pc : PC) : PC := { pc with position := pc.position / 2 }

/-- `merkelize_row` instantiated with the `ProofCollection` visitor.
`index` is the running index of the left element of the visited pair
(starts at 0, incremented by 2), `acc` the `next` vector being built.
The three match arms mirror the source: a full pair is combined with
`H(a ++ b)`; a trailing odd element is promoted when `acc` is non-empty
(after which the loop sees `(None, None)` and visits once more), and is
the root when `acc` is empty; an exhausted iterator returns the built row. -/
def merkelizeRowPC (H : Bytes → Bytes) : PC → Nat → List Bytes → List Bytes → PC × Sum Bytes (List Bytes)
  | pc, index, acc, [] => (pcVisit pc index none none, Sum.inr acc)
  | pc, index, acc, [a] =>
    let pc1 := pcVisit pc index (some a) none
    if acc = [] then (pc1, Sum.inl a)
    else (pcVisit pc1 (index + 2) none none, Sum.inr (acc ++ [a]))
  | pc, index, acc, a :: b :: rest =>
    merkelizeRowPC H (pcVisit pc index (some a) (some b)) (index + 2) (acc ++ [H (a ++ b)]) rest

/-- The level loop of `merkelize` (with the `ProofCollection` visitor): process
the current row; `Ok root` ends, `Err []` (empty input) gives the zero hash,
otherwise `move_up` and continue with the shorter row.  `fuel` bounds the
number of further levels; callers pass `row.length`, which always suffices. -/
def levelsPC (H : Bytes → Bytes) (fuel : Nat) (pc : PC) (row : List Bytes) : PC × Bytes :=
  match fuel, merkelizeRowPC H pc 0 [] row with
  | _, (pc2, Sum.inl root) => (pc2, root)
  | 0, (pc2, Sum.inr _) => (pc2, zeroHash)
  | f + 1, (pc2, Sum.inr next) => levelsPC H f (moveUp pc2) next

/-- `merkelize` with the `ProofCollection` visitor. -/
def merkelize (H : Bytes → Bytes) (pc : PC) (row : List Bytes) : PC × Bytes :=
  levelsPC H row.length pc row

/-- A generated merkle proof (`MerkleProof<T>` with `T` a byte string). -/
structure MerkleProof where
  root : Bytes
  proof : List Bytes
  number_of_leaves : Nat
  leaf_index : Nat
  leaf : Bytes
  deriving Repr, DecidableEq

/-- `merkle_proof`: hash the leaves, run `merkelize` with a `ProofCollection`
positioned at `leaf_index`.  The source panics when `leaf_index` is out of
range (the captured `leaf` is `None`); the embedding returns `none` there. -/
def merkle_proof (H : Bytes → Bytes) (leaves : List Bytes) (leaf_index : Nat) : Option MerkleProof :=
  if h : leaf_index < leaves.length then
    let out := merkelize H { proof := [], position := leaf_index } (leaves.map H)
    some { root := out.2, proof := out.1.proof, number_of_leaves := leaves.length,
           leaf_index := leaf_index, leaf := leaves.get ⟨leaf_index, h⟩ }
  else none

/-- `Leaf<'a>`: either leaf content to be hashed or an already-computed hash. -/
inductive Leaf where
  | value (content : Bytes)
  | hash (h : Bytes)
  deriving Repr, DecidableEq

/-- One step of the `verify_proof` fold: combine the accumulator `a` with the
next proof element `b`, the order decided by the working position and width. -/
def verifyStep (H : Bytes → Bytes) (acc : Bytes × Nat × Nat) (b : Bytes) : Bytes × Nat × Nat :=
  let a := acc.1
  let position := acc.2.1
  let width := acc.2.2
  let h := if position % 2 = 1 ∨ position + 1 = width then H (b ++ a) else H (a ++ b)
  (h, position / 2, (width - 1) / 2 + 1)

/-- `verify_proof`: reject an out-of-range index, rehash the leaf if needed,
fold the proof elements and compare with the root. -/
def verify_proof (H : Bytes → Bytes) (root : Bytes) (proof : List Bytes)
    (number_of_leaves leaf_index : Nat) (leaf : Leaf) : Bool :=
  if number_of_leaves ≤ leaf_index then false
  else
    let leaf_hash :=
      match leaf with
      | Leaf.value content => H content
      | Leaf.hash h => h
    let computed := (proof.foldl (verifyStep H) (leaf_hash, leaf_index, number_of_leaves)).1
    decide (root = computed)

/-- `merkelize_row` instantiated with the unit visitor `()`. -/
def merkelize_row (H : Bytes → Bytes) : List Bytes → List Bytes → Sum Bytes (List Bytes)
  | acc, [] => Sum.inr acc
  | acc, [a] => if acc = [] then Sum.inl a else Sum.inr (acc ++ [a])
  | acc, a :: b :: rest => merkelize_row H (acc ++ [H (a ++ b)]) rest

/-- The level loop of `merkelize` with the unit visitor. -/
def levelsPlain (H : Bytes → Bytes) (fuel : Nat) (row : List Bytes) : Bytes :=
  match fuel, merkelize_row H [] row with
  | _, Sum.inl root => root
  | 0, Sum.inr _ => zeroHash
  | f + 1, Sum.inr next => levelsPlain H f next

/-- `merkle_root`: hash each leaf, then `merkelize` with the unit visitor. -/
def merkle_root (H : Bytes → Bytes) (leaves : List Bytes) : Bytes :=
  levelsPlain H (leaves.map H).length (leaves.map H)

/-- Specification-side description of one level of tree construction: adjacent
elements are combined as `H(left ++ right)` in positional order, a trailing odd
element is promoted unchanged. Used to state what `merkelize_row` computes. -/
def combineRow (H : Bytes → Bytes) : List Bytes → List Bytes
  | [] => []
  | [a] => [a]
  | a :: b :: rest => H (a ++ b) :: combineRow H rest

/-- Specification-side description of the proof items a `ProofCollection` at
position `p` picks up from one row whose visits start at `index`. -/
def rowItem (p : Nat) : Nat → List Bytes → List Bytes
  | _, [] => []
  | index, [a] => if p = index + 1 then [a] else []
  | index, a :: _b :: rest =>
    (if p = index then [_b] else if p = index + 1 then [a] else []) ++ rowItem p (index + 2) rest

/-- Lexicographic byte-string comparison (`a ≤ b`), the order the spec's
claimed min/max sibling reordering would use. -/
def hashLe : Bytes → Bytes → Bool
  | [], _ => true
  | _ :: _, [] => false
  | a :: as, b :: bs => if a < b then true else if b < a then false else hashLe as bs

/-- A concrete order-sensitive test hasher used for witnesses and
counterexamples (the source is generic over the hasher). -/
def hashC (l : Bytes) : Bytes := [l.foldl (fun a x => 2 * a + x + 1) 0]

/-!
## Voter worker vote cadence (`beefy-gadget/src/worker.rs`)

Block numbers (`NumberFor<B>`) are embedded as `Nat`; `saturating_sub` is
truncated `Nat` subtraction.  The block difference goes through
`saturated_into::<u32>()` (saturating at `2^32 - 1`) before
`u32::next_power_of_two`, whose result overflows `u32` for arguments above
`2^31`: the release build wraps it to 0 (a debug build would panic); the
embedding models the release semantics.
-/

/-- Doubling loop behind `next_power_of_two`: starting from the power of two
`p`, double until `x ≤ p`. -/
def npotLoop (x : Nat) : Nat → Nat → Nat
  | 0, p => p
  | f + 1, p => if x ≤ p then p else npotLoop x f (2 * p)

/-- `u32::next_power_of_two`: the smallest power of two `≥ x` (with
`next_power_of_two 0 = 1`) while that fits in `u32`, i.e. for `x ≤ 2^31`;
above `2^31` the `u32` result wraps to 0 (release semantics; debug panics). -/
def next_power_of_two (x : Nat) : Nat :=
  if x ≤ 2 ^ 31 then npotLoop x x 1 else 0

/-- Modelled from the spec: the spec's own `next_power_of_two` — "the smallest
power of two ≥ x, with next_power_of_two(0) = 1" — as the unbounded function
on `Nat`, with no `u32` wrap.  Used only to state the original claims C6/C7
and compare them with the `u32` semantics of the code. -/
def spec_next_power_of_two (x : Nat) : Nat := npotLoop x x 1

/-- `vote_candidate`: the candidate block for the next vote.  The `number`
argument is unused by the computation (the source keeps it for tracing);
`diff32` is `diff.saturated_into::<u32>()`. -/
def vote_candidate (number best_grandpa best_beefy min_delta : Nat) : Nat :=
  let diff := best_grandpa - best_beefy
  let diff32 := min diff (2 ^ 32 - 1)
  best_beefy + max min_delta (next_power_of_two diff32)

/-- `BeefyWorker::should_vote_on`: no vote while the best BEEFY block is
unknown; otherwise vote exactly on the candidate block. -/
def should_vote_on (best_beefy_block : Option Nat) (best_grandpa_block min_block_delta number : Nat) : Bool :=
  match best_beefy_block with
  | none => false
  | some best_beefy => number == vote_candidate number best_grandpa_block best_beefy min_block_delta

/-- The vote gate of `handle_finality_notification`: a vote message is sent
iff `should_vote_on` holds, a local authority id is present, an MMR-root
digest is found in the header, and signing the commitment succeeds
(`local_id`, `mmr_root` and `sign_result` are the outcomes of the keystore
lookup, the digest scan and `sign_commitment`, passed in as data; the source
checks them in this order and returns without voting when one is absent). -/
def worker_votes {Id Sig : Type} (best_beefy_block : Option Nat)
    (best_grandpa_block min_block_delta number : Nat) (local_id : Option Id)
    (mmr_root : Option Bytes) (sign_result : Option Sig) : Bool :=
  should_vote_on best_beefy_block best_grandpa_block min_block_delta number &&
    local_id.isSome && mmr_root.isSome && sign_result.isSome

/-!
## Round tracker (`beefy-gadget/src/round.rs`)

`Rounds` is generic over the round key, authority id and signature types (the
source requires `PartialEq`; the embedding takes `DecidableEq`).  The
`BTreeMap` is embedded as an association list (the map operations used —
`entry().or_default()`, `get`, `remove` — depend only on key lookup, not on
key order).
-/

/-- Association-list lookup (`BTreeMap::get`). -/
def alist_get {K V : Type} [DecidableEq K] : List (K × V) → K → Option V
  | [], _ => none
  | (k', v) :: t, k => if k' = k then some v else alist_get t k

/-- Association-list insert-or-replace (`BTreeMap::entry` + write-back). -/
def alist_update {K V : Type} [DecidableEq K] : List (K × V) → K → V → List (K × V)
  | [], k, v => [(k, v)]
  | (k', v') :: t, k, v => if k' = k then (k, v) :: t else (k', v') :: alist_update t k v

/-- Association-list removal (`BTreeMap::remove`). -/
def alist_remove {K V : Type} [DecidableEq K] : List (K × V) → K → List (K × V)
  | [], _ => []
  | (k', v') :: t, k => if k' = k then t else (k', v') :: alist_remove t k

/-- `threshold`: `authorities − (authorities − 1) / 3` (saturating). -/
def threshold (authorities : Nat) : Nat :=
  let faulty := (authorities - 1) / 3
  authorities - faulty

/-- `RoundTracker::add_vote`: refuse an exact duplicate pair, append otherwise. -/
def tracker_add_vote {Id Sig : Type} [DecidableEq Id] [DecidableEq Sig]
    (votes : List (Id × Sig)) (vote : Id × Sig) : List (Id × Sig) × Bool :=
  if vote ∈ votes then (votes, false) else (votes ++ [vote], true)

/-- `RoundTracker::is_done`: at least `t` votes collected. -/
def tracker_is_done {Id Sig : Type} (votes : List (Id × Sig)) (t : Nat) : Bool :=
  decide (t ≤ votes.length)

/-- `Rounds`: per-round vote trackers plus the authority set. -/
structure Rounds (K Id Sig : Type) where
  rounds : List (K × List (Id × Sig))
  authorities : List Id

/-- `Rounds::new`. -/
def rounds_new {K Id Sig : Type} (authorities : List Id) : Rounds K Id Sig :=
  { rounds := [], authorities := authorities }

/-- `Rounds::add_vote`: `entry(round).or_default().add_vote(vote)`. -/
def rounds_add_vote {K Id Sig : Type} [DecidableEq K] [DecidableEq Id] [DecidableEq Sig]
    (r : Rounds K Id Sig) (round : K) (vote : Id × Sig) : Rounds K Id Sig × Bool :=
  let votes := (alist_get r.rounds round).getD []
  let res := tracker_add_vote votes vote
  ({ rounds := alist_update r.rounds round res.1, authorities := r.authorities }, res.2)

/-- `Rounds::is_done`: `false` for a round that was never created. -/
def rounds_is_done {K Id Sig : Type} [DecidableEq K] (r : Rounds K Id Sig) (round : K) : Bool :=
  match alist_get r.rounds round with
  | some votes => tracker_is_done votes (threshold r.authorities.length)
  | none => false

/-- `Rounds::drop`: remove the round and return its votes re-arranged into the
positional vector aligned with the authority order (`find_map` takes the first
pair whose id matches each authority). -/
def rounds_drop {K Id Sig : Type} [DecidableEq K] [DecidableEq Id]
    (r : Rounds K Id Sig) (round : K) : Rounds K Id Sig × Option (List (Option Sig)) :=
  match alist_get r.rounds round with
  | none => (r, none)
  | some votes =>
    ({ rounds := alist_remove r.rounds round, authorities := r.authorities },
     some (r.authorities.map
       (fun aid => (votes.find? (fun v => decide (v.1 = aid))).map Prod.snd)))

/-- States of a `Rounds` instance reachable from `Rounds::new` through
`add_vote` and `drop`. -/
inductive RoundsReachable {K Id Sig : Type} [DecidableEq K] [DecidableEq Id] [DecidableEq Sig] :
    Rounds K Id Sig → Prop
  | new (authorities : List Id) : RoundsReachable (rounds_new authorities)
  | add_vote (r : Rounds K Id Sig) (round : K) (vote : Id × Sig) :
      RoundsReachable r → RoundsReachable (rounds_add_vote r round vote).1
  | drop (r : Rounds K Id Sig) (round : K) :
      RoundsReachable r → RoundsReachable (rounds_drop r round).1

/-- Invariant: every stored tracker holds no duplicate `(id, signature)` pair. -/
def RoundsNodup {K Id Sig : Type} (r : Rounds K Id Sig) : Prop :=
  ∀ kv ∈ r.rounds, (kv.2 : List (Id × Sig)).Nodup

/-!
## Light client (`beefy-light-client/src/client.rs`)

`Commitment`/`SignedCommitment` come from `primitives/src/commitment.rs`
(`BlockNumber = u64`, payload an MMR root hash), `Error` from
`light-client/src/error.rs`.  `Keyring::verify` (recoverable-ECDSA
verification) and SCALE encoding of commitments are not part of the sources;
the embedding takes them as abstract arguments `kverify` and `encodeC`, and
the validator public-key type `Pub` and signature type `Sig` are parameters.
-/

/-- `Commitment<TBlockNumber = u64, TPayload = MmrRootHash>`. -/
structure Commitment where
  payload : Bytes
  block_number : Nat
  validator_set_id : Nat
  is_set_transition_block : Bool
  deriving Repr, DecidableEq

/-- `SignedCommitment`: a commitment plus one optional signature per validator. -/
structure SignedCommitment (Sig : Type) where
  commitment : Commitment
  signatures : List (Option Sig)

/-- `SignedCommitment::no_of_signatures`: the number of `Some` slots. -/
def no_of_signatures {Sig : Type} (s : SignedCommitment Sig) : Nat :=
  (s.signatures.filter (fun x => x.isSome)).length

/-- The light-client `Error` enum. -/
inductive Error where
  | InvalidValidatorSet (got want : Nat)
  | StaleBlock (got best_known : Nat)
  | InsufficientSignatures (got want : Nat)
  | InsufficientValidSignatures (got want : Nat)
  | Proof (msg : String)
  deriving Repr, DecidableEq

/-- `ValidatorSet`. -/
structure ValidatorSet (Pub : Type) where
  validators : List Pub
  id : Nat

/-- The light client state. -/
structure Client (Pub : Type) where
  active_set : ValidatorSet Pub
  next_id : Option Nat
  latest_commitment : Option Commitment

/-- `Client::new`: a single-validator genesis set with id 0 (`Keyring::Alice`'s
public key is the abstract `alice`), nothing imported yet. -/
def client_new {Pub : Type} (alice : Pub) : Client Pub :=
  { active_set := { validators := [alice], id := 0 }, next_id := none, latest_commitment := none }

/-- `Client::signature_threshold`: `2·n/3 + 1` (integer division). -/
def signature_threshold {Pub : Type} (c : Client Pub) : Nat :=
  2 * c.active_set.validators.length / 3 + 1

/-- The staleness reference: the latest imported block number, defaulting to 0. -/
def best_known {Pub : Type} (c : Client Pub) : Nat :=
  (c.latest_commitment.map Commitment.block_number).getD 0

/-- The count of cryptographically valid signatures: zip the signature slots
with the validators, keep the present ones, verify each and count `true`s. -/
def valid_count {Pub Sig : Type} (kverify : Pub → Sig → Bytes → Bool)
    (encodeC : Commitment → Bytes) (c : Client Pub) (signed : SignedCommitment Sig) : Nat :=
  ((((signed.signatures.zip c.active_set.validators).filter (fun p => p.1.isSome)).map
      (fun p =>
        match p.1 with
        | some sig => kverify p.2 sig (encodeC signed.commitment)
        | none => false)).filter (fun b => b)).length

/-- `Client::verify_signatures`. -/
def verify_signatures {Pub Sig : Type} (kverify : Pub → Sig → Bytes → Bool)
    (encodeC : Commitment → Bytes) (c : Client Pub) (signed : SignedCommitment Sig) :
    Except Error Unit :=
  if no_of_signatures signed < signature_threshold c then
    Except.error (Error.InsufficientSignatures (no_of_signatures signed) (signature_threshold c))
  else if valid_count kverify encodeC c signed < signature_threshold c then
    Except.error (Error.InsufficientValidSignatures (valid_count kverify encodeC c signed)
      (signature_threshold c))
  else Except.ok ()

/-- `Client::verify_signed`: the four-stage check chain. -/
def verify_signed {Pub Sig : Type} (kverify : Pub → Sig → Bytes → Bool)
    (encodeC : Commitment → Bytes) (c : Client Pub) (signed : SignedCommitment Sig) :
    Except Error Commitment :=
  if c.active_set.id ≠ signed.commitment.validator_set_id then
    Except.error (Error.InvalidValidatorSet signed.commitment.validator_set_id c.active_set.id)
  else if signed.commitment.block_number ≤ best_known c then
    Except.error (Error.StaleBlock signed.commitment.block_number (best_known c))
  else if signed.signatures.length ≠ c.active_set.validators.length then
    Except.error (Error.InsufficientSignatures signed.signatures.length
      c.active_set.validators.length)
  else
    match verify_signatures kverify encodeC c signed with
    | Except.error e => Except.error e
    | Except.ok _ => Except.ok signed.commitment

/-- `Client::import`: on success store the commitment; on failure leave the
client untouched and surface the error. -/
def client_import {Pub Sig : Type} (kverify : Pub → Sig → Bytes → Bool)
    (encodeC : Commitment → Bytes) (c : Client Pub) (signed : SignedCommitment Sig) :
    Client Pub × Except Error Unit :=
  match verify_signed kverify encodeC c signed with
  | Except.error e => (c, Except.error e)
  | Except.ok commitment =>
    ({ c with latest_commitment := some commitment }, Except.ok ())

/-- The total order on commitments from `primitives/src/commitment.rs`:
lexicographic on `(validator_set_id, block_number)`. -/
def commitment_lt (a b : Commitment) : Prop :=
  a.validator_set_id < b.validator_set_id ∨
    (a.validator_set_id = b.validator_set_id ∧ a.block_number < b.block_number)

/-- Client states reachable from `Client::new` through any sequence of
`import` calls (successful or not). -/
inductive ClientReachable {Pub Sig : Type} (kverify : Pub → Sig → Bytes → Bool)
    (encodeC : Commitment → Bytes) (alice : Pub) : Client Pub → Prop
  | new : ClientReachable kverify encodeC alice (client_new alice)
  | step (c : Client Pub) (s : SignedCommitment Sig) :
      ClientReachable kverify encodeC alice c →
      ClientReachable kverify encodeC alice (client_import kverify encodeC c s).1

/-- The client invariant backing the lexicographic monotonicity: the stored
latest commitment (if any) carries the active set id (the active set is never
changed by `import`). -/
def ClientInv {Pub : Type} (c : Client Pub) : Prop :=
  ∀ lc, c.latest_commitment = some lc → lc.validator_set_id = c.active_set.id

/-!
## Supporting lemmas for the Merkle development
-/

/-- Induction on lists two elements at a time, matching the recursion pattern
of `merkelize_row` and `combineRow`. -/
theorem twoStepInduction {α : Type _} {P : List α → Prop} (h0 : P [])
    (h1 : ∀ a, P [a]) (h2 : ∀ a b rest, P rest → P (a :: b :: rest)) :
    ∀ l, P l
  | [] => h0
  | [a] => h1 a
  | a :: b :: rest => h2 a b rest (twoStepInduction h0 h1 h2 rest)

theorem pcVisit_none_none (pc : PC) (index : Nat) : pcVisit pc index none none = pc := by
  simp [pcVisit]

theorem pcVisit_pair (pc : PC) (index : Nat) (a b : Bytes) :
    pcVisit pc index (some a) (some b) =
      ⟨pc.proof ++ (if pc.position = index then [b] else if pc.position = index + 1 then [a] else []),
       pc.position⟩ := by
  by_cases h : pc.position = index
  · have h2 : pc.position ≠ index + 1 := by omega
    simp [pcVisit, h, h2]
  · by_cases h' : pc.position = index + 1 <;> simp [pcVisit, h, h']

theorem pcVisit_single (pc : PC) (index : Nat) (a : Bytes) :
    pcVisit pc index (some a) none =
      ⟨pc.proof ++ (if pc.position = index + 1 then [a] else []), pc.position⟩ := by
  by_cases h' : pc.position = index + 1 <;> simp [pcVisit, h']

theorem rowItem_nil (p index : Nat) : rowItem p index [] = [] := rfl

theorem rowItem_lt (p : Nat) :
    ∀ (row : List Bytes) (index : Nat), p < index → rowItem p index row = [] := by
  intro row
  induction row using twoStepInduction with
  | h0 => intro index _; rfl
  | h1 a => intro index h; simp [rowItem]; omega
  | h2 a b rest ih =>
    intro index h
    have h1 : p ≠ index := by omega
    have h2 : p ≠ index + 1 := by omega
    simp [rowItem, h1, h2]
    exact ih (index + 2) (by omega)

theorem rowItem_shift (p : Nat) :
    ∀ (row : List Bytes) (index : Nat), rowItem (p + 2) (index + 2) row = rowItem p index row := by
  intro row
  induction row using twoStepInduction with
  | h0 => intro index; rfl
  | h1 a =>
    intro index
    by_cases h : p = index + 1
    · simp [rowItem, h]
    · have h' : p + 2 ≠ index + 2 + 1 := by omega
      simp [rowItem, h, h']
  | h2 a b rest ih =>
    intro index
    simp only [rowItem]
    rw [ih (index + 2)]
    by_cases h0 : p = index
    · have : p + 2 = index + 2 := by omega
      simp [h0, this]
    · have h0' : p + 2 ≠ index + 2 := by omega
      by_cases h1 : p = index + 1
      · have : p + 2 = index + 2 + 1 := by omega
        simp [h0, h1, h0', this]
      · have h1' : p + 2 ≠ index + 2 + 1 := by omega
        simp [h0, h1, h0', h1']

theorem merkelizeRowPC_fst (H : Bytes → Bytes) :
    ∀ (row : List Bytes) (pc : PC) (index : Nat) (acc : List Bytes),
      (merkelizeRowPC H pc index acc row).1 =
        ⟨pc.proof ++ rowItem pc.position index row, pc.position⟩ := by
  intro row
  induction row using twoStepInduction with
  | h0 =>
    intro pc index acc
    simp [merkelizeRowPC, pcVisit_none_none, rowItem_nil]
  | h1 a =>
    intro pc index acc
    by_cases h : acc = [] <;>
      simp [merkelizeRowPC, h, pcVisit_none_none, pcVisit_single, rowItem]
  | h2 a b rest ih =>
    intro pc index acc
    simp only [merkelizeRowPC]
    rw [ih, pcVisit_pair]
    simp [rowItem, List.append_assoc]

theorem merkelizeRowPC_snd (H : Bytes → Bytes) :
    ∀ (row : List Bytes) (pc : PC) (index : Nat) (acc : List Bytes),
      acc ≠ [] ∨ row.length ≠ 1 →
      (merkelizeRowPC H pc index acc row).2 = Sum.inr (acc ++ combineRow H row) := by
  intro row
  induction row using twoStepInduction with
  | h0 => intro pc index acc _; simp [merkelizeRowPC, combineRow]
  | h1 a =>
    intro pc index acc h
    have h' : acc ≠ [] := by
      rcases h with h | h
      · exact h
      · simp at h
    simp [merkelizeRowPC, h', combineRow]
  | h2 a b rest ih =>
    intro pc index acc _
    simp only [merkelizeRowPC]
    rw [ih _ _ _ (Or.inl (by simp))]
    simp [combineRow, List.append_assoc]

theorem merkelizeRowPC_root (H : Bytes → Bytes) (pc : PC) (index : Nat) (a : Bytes) :
    (merkelizeRowPC H pc index [] [a]).2 = Sum.inl a := rfl

theorem merkelize_row_spec (H : Bytes → Bytes) :
    ∀ (row : List Bytes) (acc : List Bytes),
      acc ≠ [] ∨ row.length ≠ 1 →
      merkelize_row H acc row = Sum.inr (acc ++ combineRow H row) := by
  intro row
  induction row using twoStepInduction with
  | h0 => intro acc _; simp [merkelize_row, combineRow]
  | h1 a =>
    intro acc h
    have h' : acc ≠ [] := by
      rcases h with h | h
      · exact h
      · simp at h
    simp [merkelize_row, h', combineRow]
  | h2 a b rest ih =>
    intro acc _
    simp only [merkelize_row]
    rw [ih _ (Or.inl (by simp))]
    simp [combineRow, List.append_assoc]

theorem combineRow_length (H : Bytes → Bytes) :
    ∀ row : List Bytes, (combineRow H row).length = (row.length + 1) / 2 := by
  intro row
  induction row using twoStepInduction with
  | h0 => rfl
  | h1 a => simp [combineRow]
  | h2 a b rest ih => simp [combineRow, ih]; omega

theorem rowItem_odd :
    ∀ (row : List Bytes) (p : Nat) (x : Bytes), p % 2 = 1 → row[p - 1]? = some x →
      rowItem p 0 row = [x] := by
  intro row
  induction row using twoStepInduction with
  | h0 => intro p x _ hx; simp at hx
  | h1 a =>
    intro p x hp hx
    have hplt : p - 1 < 1 := by
      by_contra hcon
      have hnone : [a][p - 1]? = none := List.getElem?_eq_none (by simp; omega)
      rw [hnone] at hx
      exact Option.noConfusion hx
    have hp1 : p = 1 := by omega
    subst hp1
    simp at hx
    simp [rowItem, hx]
  | h2 a b rest ih =>
    intro p x hp hx
    rcases Nat.lt_or_ge p 2 with h2p | h2p
    · have hp1 : p = 1 := by omega
      subst hp1
      simp at hx
      subst hx
      simp [rowItem, rowItem_lt 1 rest 2 (by omega)]
    · obtain ⟨q, rfl⟩ : ∃ q, p = q + 2 := ⟨p - 2, by omega⟩
      have hq : q % 2 = 1 := by omega
      have hx' : rest[q - 1]? = some x := by
        have h1 : q + 2 - 1 = (q - 1) + 2 := by omega
        rw [h1] at hx
        simpa using hx
      have hne0 : q + 2 ≠ 0 := by omega
      have hne1 : q + 2 ≠ 1 := by omega
      simp only [rowItem, hne0, hne1, if_false, List.nil_append]
      rw [rowItem_shift q rest 0]
      exact ih q x hq hx'

theorem rowItem_even_mid :
    ∀ (row : List Bytes) (p : Nat) (x : Bytes), p % 2 = 0 → row[p + 1]? = some x →
      rowItem p 0 row = [x] := by
  intro row
  induction row using twoStepInduction with
  | h0 => intro p x _ hx; simp at hx
  | h1 a =>
    intro p x _ hx
    have hnone : [a][p + 1]? = none := List.getElem?_eq_none (by simp)
    rw [hnone] at hx
    exact Option.noConfusion hx
  | h2 a b rest ih =>
    intro p x hp hx
    rcases Nat.eq_zero_or_pos p with hp0 | hppos
    · subst hp0
      simp at hx
      subst hx
      simp [rowItem, rowItem_lt 0 rest 2 (by omega)]
    · obtain ⟨q, rfl⟩ : ∃ q, p = q + 2 := ⟨p - 2, by omega⟩
      have hq : q % 2 = 0 := by omega
      have hx' : rest[q + 1]? = some x := by
        have h1 : q + 2 + 1 = (q + 1) + 2 := by omega
        rw [h1] at hx
        simpa using hx
      have hne0 : q + 2 ≠ 0 := by omega
      have hne1 : q + 2 ≠ 1 := by omega
      simp only [rowItem, hne0, hne1, if_false, List.nil_append]
      rw [rowItem_shift q rest 0]
      exact ih q x hq hx'

theorem rowItem_even_last :
    ∀ (row : List Bytes) (p : Nat), p % 2 = 0 → p + 1 = row.length →
      rowItem p 0 row = [] := by
  intro row
  induction row using twoStepInduction with
  | h0 => intro p _ hl; simp at hl
  | h1 a =>
    intro p hp hl
    simp at hl
    have hp0 : p = 0 := by omega
    subst hp0
    simp [rowItem]
  | h2 a b rest ih =>
    intro p hp hl
    simp at hl
    have hp2 : 2 ≤ p := by omega
    obtain ⟨q, rfl⟩ : ∃ q, p = q + 2 := ⟨p - 2, by omega⟩
    have hne0 : q + 2 ≠ 0 := by omega
    have hne1 : q + 2 ≠ 1 := by omega
    simp only [rowItem, hne0, hne1, if_false, List.nil_append]
    rw [rowItem_shift q rest 0]
    exact ih q (by omega) (by omega)

theorem combineRow_odd (H : Bytes → Bytes) :
    ∀ (row : List Bytes) (p : Nat) (x y : Bytes), p % 2 = 1 →
      row[p - 1]? = some x → row[p]? = some y →
      (combineRow H row)[p / 2]? = some (H (x ++ y)) := by
  intro row
  induction row using twoStepInduction with
  | h0 => intro p x y _ _ hy; simp at hy
  | h1 a =>
    intro p x y hp _ hy
    have hp1 : p = 0 := by
      by_contra hcon
      have hnone : [a][p]? = none := List.getElem?_eq_none (by simp; omega)
      rw [hnone] at hy
      exact Option.noConfusion hy
    omega
  | h2 a b rest ih =>
    intro p x y hp hx hy
    rcases Nat.lt_or_ge p 2 with h2p | h2p
    · have hp1 : p = 1 := by omega
      subst hp1
      simp at hx hy
      subst hx; subst hy
      simp [combineRow]
    · obtain ⟨q, rfl⟩ : ∃ q, p = q + 2 := ⟨p - 2, by omega⟩
      have hq : q % 2 = 1 := by omega
      have hx' : rest[q - 1]? = some x := by
        have h1 : q + 2 - 1 = (q - 1) + 2 := by omega
        rw [h1] at hx
        simpa using hx
      have hy' : rest[q]? = some y := by simpa using hy
      have hdiv : (q + 2) / 2 = q / 2 + 1 := by omega
      rw [hdiv]
      simpa [combineRow] using ih q x y hq hx' hy'

theorem combineRow_even_mid (H : Bytes → Bytes) :
    ∀ (row : List Bytes) (p : Nat) (x y : Bytes), p % 2 = 0 →
      row[p]? = some x → row[p + 1]? = some y →
      (combineRow H row)[p / 2]? = some (H (x ++ y)) := by
  intro row
  induction row using twoStepInduction with
  | h0 => intro p x y _ hx _; simp at hx
  | h1 a =>
    intro p x y _ _ hy
    have hnone : [a][p + 1]? = none := List.getElem?_eq_none (by simp)
    rw [hnone] at hy
    exact Option.noConfusion hy
  | h2 a b rest ih =>
    intro p x y hp hx hy
    rcases Nat.eq_zero_or_pos p with hp0 | hppos
    · subst hp0
      simp at hx hy
      subst hx; subst hy
      simp [combineRow]
    · obtain ⟨q, rfl⟩ : ∃ q, p = q + 2 := ⟨p - 2, by omega⟩
      have hq : q % 2 = 0 := by omega
      have hx' : rest[q]? = some x := by simpa using hx
      have hy' : rest[q + 1]? = some y := by
        have h1 : q + 2 + 1 = (q + 1) + 2 := by omega
        rw [h1] at hy
        simpa using hy
      have hdiv : (q + 2) / 2 = q / 2 + 1 := by omega
      rw [hdiv]
      simpa [combineRow] using ih q x y hq hx' hy'

theorem combineRow_even_last (H : Bytes → Bytes) :
    ∀ (row : List Bytes) (p : Nat) (x : Bytes), p % 2 = 0 → p + 1 = row.length →
      row[p]? = some x →
      (combineRow H row)[p / 2]? = some x := by
  intro row
  induction row using twoStepInduction with
  | h0 => intro p x _ hl _; simp at hl
  | h1 a =>
    intro p x _ hl hx
    have hp0 : p = 0 := by simpa using hl
    subst hp0
    simp at hx
    subst hx
    simp [combineRow]
  | h2 a b rest ih =>
    intro p x hp hl hx
    simp at hl
    have hp2 : 2 ≤ p := by omega
    obtain ⟨q, rfl⟩ : ∃ q, p = q + 2 := ⟨p - 2, by omega⟩
    have hx' : rest[q]? = some x := by simpa using hx
    have hdiv : (q + 2) / 2 = q / 2 + 1 := by omega
    rw [hdiv]
    simpa [combineRow] using ih q x (by omega) (by omega) hx'

/-- Central invariant for the Merkle round trip: running the level loop from a
row in which the tracked element sits at position `p` collects exactly the
proof items that the `verify_proof` fold, primed with working state `(P, W)`,
consumes to recompute the root.  The working state is either in sync with the
row (`P = p`, `W = row.length`) or — once the tracked element has become the
promoted last element of an odd row — lagging behind with `P + 1 = W`, which
still selects the proof-element-first combination at every later step. -/
theorem levelsPC_roundtrip (H : Bytes → Bytes) :
    ∀ (fuel : Nat) (row : List Bytes) (p P W : Nat) (pr : List Bytes) (a : Bytes),
      row.length ≤ fuel + 1 →
      row[p]? = some a →
      ((P = p ∧ W = row.length) ∨ (p + 1 = row.length ∧ P + 1 = W)) →
      ∃ items,
        (levelsPC H fuel ⟨pr, p⟩ row).1.proof = pr ++ items ∧
        (items.foldl (verifyStep H) (a, P, W)).1 = (levelsPC H fuel ⟨pr, p⟩ row).2 := by
  intro fuel
  induction fuel with
  | zero =>
    intro row p P W pr a hfuel ha _
    rcases row with _ | ⟨x, row'⟩
    · simp at ha
    rcases row' with _ | ⟨y, rest⟩
    · have hp0 : p = 0 := by
        by_contra hcon
        have hnone : [x][p]? = none := List.getElem?_eq_none (by simp; omega)
        rw [hnone] at ha
        exact Option.noConfusion ha
      subst hp0
      have hxa : x = a := by simpa using ha
      refine ⟨[], ?_, ?_⟩
      · rw [show (levelsPC H 0 (⟨pr, 0⟩ : PC) [x]).1 = (merkelizeRowPC H ⟨pr, 0⟩ 0 [] [x]).1 from rfl,
          merkelizeRowPC_fst]
        simp [rowItem]
      · show a = x
        exact hxa.symm
    · simp at hfuel
  | succ f ih =>
    intro row p P W pr a hfuel ha hinv
    have hplen : p < row.length := by
      by_contra hcon
      have hnone : row[p]? = none := List.getElem?_eq_none (by omega)
      rw [hnone] at ha
      exact Option.noConfusion ha
    rcases row with _ | ⟨x, row'⟩
    · simp at ha
    rcases row' with _ | ⟨y, rest⟩
    · have hp0 : p = 0 := by
        by_contra hcon
        have hnone : [x][p]? = none := List.getElem?_eq_none (by simp; omega)
        rw [hnone] at ha
        exact Option.noConfusion ha
      subst hp0
      have hxa : x = a := by simpa using ha
      refine ⟨[], ?_, ?_⟩
      · rw [show (levelsPC H (f + 1) (⟨pr, 0⟩ : PC) [x]).1 = (merkelizeRowPC H ⟨pr, 0⟩ 0 [] [x]).1 from rfl,
          merkelizeRowPC_fst]
        simp [rowItem]
      · show a = x
        exact hxa.symm
    · have hlen : (x :: y :: rest).length = rest.length + 2 := by simp
      have hsnd := merkelizeRowPC_snd H (x :: y :: rest) ⟨pr, p⟩ 0 [] (Or.inr (by simp))
      have hfst := merkelizeRowPC_fst H (x :: y :: rest) ⟨pr, p⟩ 0 []
      have hsplit : merkelizeRowPC H ⟨pr, p⟩ 0 [] (x :: y :: rest) =
          (⟨pr ++ rowItem p 0 (x :: y :: rest), p⟩, Sum.inr (combineRow H (x :: y :: rest))) := by
        have h1 : merkelizeRowPC H ⟨pr, p⟩ 0 [] (x :: y :: rest) =
            ((merkelizeRowPC H ⟨pr, p⟩ 0 [] (x :: y :: rest)).1,
             (merkelizeRowPC H ⟨pr, p⟩ 0 [] (x :: y :: rest)).2) := rfl
        rw [h1, hfst, hsnd]
        simp
      have hstep : levelsPC H (f + 1) ⟨pr, p⟩ (x :: y :: rest) =
          levelsPC H f ⟨pr ++ rowItem p 0 (x :: y :: rest), p / 2⟩ (combineRow H (x :: y :: rest)) := by
        rw [levelsPC.eq_def, hsplit]
        rfl
      have hnextlen : (combineRow H (x :: y :: rest)).length = ((x :: y :: rest).length + 1) / 2 :=
        combineRow_length H (x :: y :: rest)
      have hfuel' : (combineRow H (x :: y :: rest)).length ≤ f + 1 := by omega
      by_cases hodd : p % 2 = 1
      · -- odd position: the left sibling is collected, combined as H(sibling ++ a)
        have hsib : p - 1 < (x :: y :: rest).length := by omega
        obtain ⟨sx, hsx⟩ : ∃ sx, (x :: y :: rest)[p - 1]? = some sx :=
          ⟨_, List.getElem?_eq_getElem hsib⟩
        have hitem : rowItem p 0 (x :: y :: rest) = [sx] := rowItem_odd _ p sx hodd hsx
        have hnext : (combineRow H (x :: y :: rest))[p / 2]? = some (H (sx ++ a)) :=
          combineRow_odd H _ p sx a hodd hsx ha
        have hcond : P % 2 = 1 ∨ P + 1 = W := by
          rcases hinv with ⟨hP, _⟩ | ⟨_, hPW⟩
          · exact Or.inl (hP ▸ hodd)
          · exact Or.inr hPW
        have hinv' : (P / 2 = p / 2 ∧ (W - 1) / 2 + 1 = (combineRow H (x :: y :: rest)).length) ∨
            (p / 2 + 1 = (combineRow H (x :: y :: rest)).length ∧ P / 2 + 1 = (W - 1) / 2 + 1) := by
          rcases hinv with ⟨hP, hW⟩ | ⟨hlast, hPW⟩
          · exact Or.inl (by omega)
          · exact Or.inr (by omega)
        obtain ⟨items', hpr', hfold'⟩ :=
          ih (combineRow H (x :: y :: rest)) (p / 2) (P / 2) ((W - 1) / 2 + 1)
            (pr ++ [sx]) (H (sx ++ a)) hfuel' hnext hinv'
        refine ⟨sx :: items', ?_, ?_⟩
        · rw [hstep, hitem, hpr']
          simp
        · rw [hstep, hitem, List.foldl_cons]
          have hv : verifyStep H (a, P, W) sx = (H (sx ++ a), P / 2, (W - 1) / 2 + 1) := by
            show (if P % 2 = 1 ∨ P + 1 = W then H (sx ++ a) else H (a ++ sx), P / 2, (W - 1) / 2 + 1) =
              (H (sx ++ a), P / 2, (W - 1) / 2 + 1)
            rw [if_pos hcond]
          rw [hv]
          exact hfold'
      · have heven : p % 2 = 0 := by omega
        rcases Nat.lt_or_ge (p + 1) (x :: y :: rest).length with hmid | hge
        · -- even, inner position: the right sibling is collected, combined as H(a ++ sibling)
          obtain ⟨hP, hW⟩ : P = p ∧ W = (x :: y :: rest).length := by
            rcases hinv with h | ⟨hlast, _⟩
            · exact h
            · omega
          obtain ⟨sy, hsy⟩ : ∃ sy, (x :: y :: rest)[p + 1]? = some sy :=
            ⟨_, List.getElem?_eq_getElem hmid⟩
          have hitem : rowItem p 0 (x :: y :: rest) = [sy] := rowItem_even_mid _ p sy heven hsy
          have hnext : (combineRow H (x :: y :: rest))[p / 2]? = some (H (a ++ sy)) :=
            combineRow_even_mid H _ p a sy heven ha hsy
          have hinv' : (P / 2 = p / 2 ∧ (W - 1) / 2 + 1 = (combineRow H (x :: y :: rest)).length) ∨
              (p / 2 + 1 = (combineRow H (x :: y :: rest)).length ∧ P / 2 + 1 = (W - 1) / 2 + 1) :=
            Or.inl (by omega)
          obtain ⟨items', hpr', hfold'⟩ :=
            ih (combineRow H (x :: y :: rest)) (p / 2) (P / 2) ((W - 1) / 2 + 1)
              (pr ++ [sy]) (H (a ++ sy)) hfuel' hnext hinv'
          refine ⟨sy :: items', ?_, ?_⟩
          · rw [hstep, hitem, hpr']
            simp
          · rw [hstep, hitem, List.foldl_cons]
            have hcond : ¬ (P % 2 = 1 ∨ P + 1 = W) := by omega
            have hv : verifyStep H (a, P, W) sy = (H (a ++ sy), P / 2, (W - 1) / 2 + 1) := by
              show (if P % 2 = 1 ∨ P + 1 = W then H (sy ++ a) else H (a ++ sy), P / 2, (W - 1) / 2 + 1) =
                (H (a ++ sy), P / 2, (W - 1) / 2 + 1)
              rw [if_neg hcond]
            rw [hv]
            exact hfold'
        · -- even last position: promoted unchanged, nothing collected, the state lags
          have hlast : p + 1 = (x :: y :: rest).length := by omega
          have hitem : rowItem p 0 (x :: y :: rest) = [] := rowItem_even_last _ p heven hlast
          have hnext : (combineRow H (x :: y :: rest))[p / 2]? = some a :=
            combineRow_even_last H _ p a heven hlast ha
          have hPW : P + 1 = W := by
            rcases hinv with ⟨hP, hW⟩ | ⟨_, hPW⟩
            · omega
            · exact hPW
          have hinv' : (P = p / 2 ∧ W = (combineRow H (x :: y :: rest)).length) ∨
              (p / 2 + 1 = (combineRow H (x :: y :: rest)).length ∧ P + 1 = W) :=
            Or.inr ⟨by omega, hPW⟩
          obtain ⟨items', hpr', hfold'⟩ :=
            ih (combineRow H (x :: y :: rest)) (p / 2) P W (pr ++ []) a hfuel' hnext hinv'
          refine ⟨items', ?_, ?_⟩
          · rw [hstep, hitem]
            simpa using hpr'
          · rw [hstep, hitem]
            simpa using hfold'

/-- C1: Merkle round-trip.  For every hasher (hence in particular Keccak-256),
every list of byte-string leaves and every index `i < |leaves|`, the proof
`p = merkle_proof(leaves, i)` satisfies
`verify_proof(p.root, p.proof, |leaves|, i, leaves[i]) = true`. -/
theorem claim1_merkle_round_trip (H : Bytes → Bytes) (leaves : List Bytes) (i : Nat)
    (hi : i < leaves.length) :
    ∀ mp, merkle_proof H leaves i = some mp →
      verify_proof H mp.root mp.proof leaves.length i (Leaf.value (leaves.get ⟨i, hi⟩)) = true := by
  intro mp hmp
  have hmp' : mp = { root := (merkelize H ⟨[], i⟩ (leaves.map H)).2,
                     proof := (merkelize H ⟨[], i⟩ (leaves.map H)).1.proof,
                     number_of_leaves := leaves.length, leaf_index := i,
                     leaf := leaves.get ⟨i, hi⟩ } := by
    rw [merkle_proof, dif_pos hi] at hmp
    exact (Option.some.inj hmp).symm
  subst hmp'
  show verify_proof H (merkelize H ⟨[], i⟩ (leaves.map H)).2
      (merkelize H ⟨[], i⟩ (leaves.map H)).1.proof leaves.length i
      (Leaf.value (leaves.get ⟨i, hi⟩)) = true
  have hrowlen : (leaves.map H).length = leaves.length := by simp
  have ha : (leaves.map H)[i]? = some (H (leaves.get ⟨i, hi⟩)) := by
    rw [List.getElem?_map, List.getElem?_eq_getElem hi]
    simp
  obtain ⟨items, hpr, hfold⟩ :=
    levelsPC_roundtrip H (leaves.map H).length (leaves.map H) i i leaves.length []
      (H (leaves.get ⟨i, hi⟩)) (by omega) ha (Or.inl ⟨rfl, hrowlen.symm⟩)
  have hout : merkelize H ⟨[], i⟩ (leaves.map H) =
      levelsPC H (leaves.map H).length ⟨[], i⟩ (leaves.map H) := rfl
  rw [verify_proof, if_neg (by omega), hout, hpr]
  simp only [List.nil_append]
  exact decide_eq_true hfold.symm

/-- C1 witness: a concrete three-leaf round trip under the test hasher. -/
theorem claim1_witness :
    ∃ mp, merkle_proof hashC [[1], [2], [3]] 1 = some mp ∧
      verify_proof hashC mp.root mp.proof 3 1 (Leaf.value [2]) = true := by
  refine ⟨{ root := [27], proof := [[2], [4]], number_of_leaves := 3, leaf_index := 1,
            leaf := [2] }, by decide, ?_⟩
  exact claim1_merkle_round_trip hashC [[1], [2], [3]] 1 (by decide)
    { root := [27], proof := [[2], [4]], number_of_leaves := 3, leaf_index := 1, leaf := [2] }
    (by decide)

/-- C2 counterexample: the tree does NOT reorder sibling hashes by numeric
value.  With the order-sensitive test hasher and two leaves whose hashes
compare as `hashC [1] > hashC [0]`, the actual root is the hash of the
positional concatenation and differs from the hash of the min-first
concatenation claimed by the spec. -/
theorem claim2_counterexample :
    merkle_root hashC [[1], [0]] = hashC (hashC [1] ++ hashC [0]) ∧
    hashLe (hashC [1]) (hashC [0]) = false ∧
    merkle_root hashC [[1], [0]] ≠
      hashC (if hashLe (hashC [1]) (hashC [0]) then hashC [1] ++ hashC [0]
             else hashC [0] ++ hashC [1]) := by
  refine ⟨by decide, by decide, by decide⟩

/-- C2 amended: every internal node is `H(left ++ right)` with the two sibling
hashes in positional order — no reordering by numeric value.  Stated for the
row construction (`merkelize_row` computes exactly the positional pairing
`combineRow`), for the two-leaf root, and for `verify_proof`, whose operand
order is decided purely by the working index and width. -/
theorem claim2_amended_positional_order :
    (∀ (H : Bytes → Bytes) (a b : Bytes) (rest : List Bytes),
      merkelize_row H [] (a :: b :: rest) = Sum.inr (combineRow H (a :: b :: rest))) ∧
    (∀ (H : Bytes → Bytes) (l0 l1 : Bytes), merkle_root H [l0, l1] = H (H l0 ++ H l1)) ∧
    (∀ (H : Bytes → Bytes) (root s l : Bytes),
      verify_proof H root [s] 2 0 (Leaf.value l) = decide (root = H (H l ++ s))) ∧
    (∀ (H : Bytes → Bytes) (root s l : Bytes),
      verify_proof H root [s] 2 1 (Leaf.value l) = decide (root = H (s ++ H l))) := by
  refine ⟨?_, ?_, ?_, ?_⟩
  · intro H a b rest
    have h := merkelize_row_spec H (a :: b :: rest) [] (Or.inr (by simp))
    simpa using h
  · intro H l0 l1
    rfl
  · intro H root s l
    rfl
  · intro H root s l
    rfl

/-- C10: verify_proof returns false whenever `leaf_index ≥ number_of_leaves`
(including `number_of_leaves = 0`), for every root, proof and leaf; the
out-of-range check fires before any other computation. -/
theorem claim10_out_of_range (H : Bytes → Bytes) (root : Bytes) (proof : List Bytes)
    (n i : Nat) (leaf : Leaf) (h : n ≤ i) :
    verify_proof H root proof n i leaf = false := by
  simp [verify_proof, h]

/-- C10 witness: a concrete out-of-range rejection. -/
theorem claim10_witness : verify_proof hashC [1] [[2]] 2 5 (Leaf.value [3]) = false :=
  claim10_out_of_range hashC [1] [[2]] 2 5 (Leaf.value [3]) (by decide)

theorem npotLoop_le (x : Nat) :
    ∀ (f p : Nat), x ≤ p * 2 ^ f → x ≤ npotLoop x f p := by
  intro f
  induction f with
  | zero => intro p h; simpa [npotLoop] using h
  | succ g ih =>
    intro p h
    rw [npotLoop]
    by_cases hx : x ≤ p
    · simpa [hx]
    · simp only [hx, if_false]
      refine ih (2 * p) ?_
      have hcomm : 2 * p * 2 ^ g = p * 2 ^ (g + 1) := by ring
      rw [hcomm]
      exact h

theorem npotLoop_pow (x : Nat) :
    ∀ (f k : Nat), ∃ j, npotLoop x f (2 ^ k) = 2 ^ j := by
  intro f
  induction f with
  | zero => intro k; exact ⟨k, rfl⟩
  | succ g ih =>
    intro k
    rw [npotLoop]
    by_cases hx : x ≤ 2 ^ k
    · exact ⟨k, by simp [hx]⟩
    · simp only [hx, if_false]
      have h2 : 2 * 2 ^ k = 2 ^ (k + 1) := by ring
      rw [h2]
      exact ih (k + 1)

theorem npotLoop_min (x : Nat) :
    ∀ (f k y : Nat), 2 ^ k ≤ 2 ^ y → x ≤ 2 ^ y → npotLoop x f (2 ^ k) ≤ 2 ^ y := by
  intro f
  induction f with
  | zero => intro k y hk _; simpa [npotLoop] using hk
  | succ g ih =>
    intro k y hk hx
    rw [npotLoop]
    by_cases hle : x ≤ 2 ^ k
    · simpa [hle] using hk
    · simp only [hle, if_false]
      have hky : k < y := by
        have h1 : 2 ^ k < 2 ^ y := lt_of_lt_of_le (by omega) hx
        exact (pow_lt_pow_iff_right₀ (by omega)).mp h1
      have h2 : 2 * 2 ^ k = 2 ^ (k + 1) := by ring
      rw [h2]
      exact ih (k + 1) y (pow_le_pow_right₀ (by omega) (by omega)) hx

theorem spec_next_power_of_two_ge (x : Nat) : x ≤ spec_next_power_of_two x := by
  have h : x ≤ 1 * 2 ^ x := by
    have := Nat.lt_two_pow x
    omega
  simpa [spec_next_power_of_two] using npotLoop_le x x 1 (by simpa using h)

theorem spec_next_power_of_two_is_pow (x : Nat) : ∃ j, spec_next_power_of_two x = 2 ^ j := by
  have h := npotLoop_pow x x 0
  simpa [spec_next_power_of_two] using h

theorem spec_next_power_of_two_min (x y : Nat) (h : x ≤ 2 ^ y) :
    spec_next_power_of_two x ≤ 2 ^ y := by
  have h0 : (2 : Nat) ^ 0 ≤ 2 ^ y := Nat.one_le_two_pow
  have := npotLoop_min x x 0 y (by simpa using h0) h
  simpa [spec_next_power_of_two] using this

theorem spec_next_power_of_two_mono {x y : Nat} (h : x ≤ y) :
    spec_next_power_of_two x ≤ spec_next_power_of_two y := by
  obtain ⟨j, hj⟩ := spec_next_power_of_two_is_pow y
  have hy : y ≤ 2 ^ j := hj ▸ spec_next_power_of_two_ge y
  have hx : x ≤ 2 ^ j := le_trans h hy
  calc spec_next_power_of_two x ≤ 2 ^ j := spec_next_power_of_two_min x j hx
    _ = spec_next_power_of_two y := hj.symm

theorem next_power_of_two_eq_spec (x : Nat) (h : x ≤ 2 ^ 31) :
    next_power_of_two x = spec_next_power_of_two x := by
  rw [next_power_of_two, if_pos h]
  rfl

theorem next_power_of_two_wrap (x : Nat) (h : 2 ^ 31 < x) : next_power_of_two x = 0 := by
  rw [next_power_of_two, if_neg (by omega)]

theorem vote_candidate_eq_spec (N bg bb md : Nat) (h : bg - bb ≤ 2 ^ 31) :
    vote_candidate N bg bb md = bb + max md (spec_next_power_of_two (bg - bb)) := by
  show bb + max md (next_power_of_two (min (bg - bb) (2 ^ 32 - 1))) =
    bb + max md (spec_next_power_of_two (bg - bb))
  have hmin : min (bg - bb) (2 ^ 32 - 1) = bg - bb := Nat.min_eq_left (by omega)
  rw [hmin, next_power_of_two_eq_spec (bg - bb) h]

theorem vote_candidate_wrap (N bg bb md : Nat) (h : 2 ^ 31 < bg - bb) :
    vote_candidate N bg bb md = bb + md := by
  show bb + max md (next_power_of_two (min (bg - bb) (2 ^ 32 - 1))) = bb + md
  have hgt : 2 ^ 31 < min (bg - bb) (2 ^ 32 - 1) :=
    lt_min_iff.mpr ⟨h, by omega⟩
  rw [next_power_of_two_wrap _ hgt]
  simp

/-- C6 counterexample: the claimed candidate formula uses the unbounded
"smallest power of two ≥ x" function, but `u32::next_power_of_two` wraps to 0
for arguments above `2^31` (release semantics).  With `best_committed = 0`,
`best_primary_finalized = 2^31 + 1` and `min_delta = 4` the code computes
candidate `4`, while the claimed formula gives `2^32`.  And the vote gate is
not just "candidate matched and local id present": with both holding but no
MMR-root digest in the header, no vote is sent. -/
theorem claim6_counterexample :
    vote_candidate 0 (2 ^ 31 + 1) 0 4 = 4 ∧
    spec_next_power_of_two (2 ^ 31 + 1) = 2 ^ 32 ∧
    vote_candidate 0 (2 ^ 31 + 1) 0 4 ≠ 0 + max 4 (spec_next_power_of_two (2 ^ 31 + 1)) ∧
    ((4 == vote_candidate 4 4 0 4) && (some 0 : Option Nat).isSome) = true ∧
    worker_votes (some 0) 4 4 4 (some 0) (none : Option Bytes) (none : Option Nat) = false := by
  refine ⟨by decide, by decide, by decide, by decide, by decide⟩

/-- C6 amended: the candidate block equals `best_committed +
max(min_block_delta, npot32(sat32(best_primary_finalized − best_committed)))`
where `sat32` saturates at `2^32 − 1` and `npot32` is `u32::next_power_of_two`
— the smallest power of two `≥ x` (value 1 at 0) for `x ≤ 2^31`, wrapping to 0
above (release semantics) — which coincides with the spec's unbounded formula
for every difference up to `2^31`.  The worker sends a vote on a
just-finalized block `N` iff `N` equals the candidate, a local authority id is
present, an MMR-root digest is found, and signing succeeds (no vote at all
while the best BEEFY block is unknown); the spec's concrete instances hold. -/
theorem claim6_amended_vote_cadence :
    (∀ N bg bb md, vote_candidate N bg bb md =
      bb + max md (next_power_of_two (min (bg - bb) (2 ^ 32 - 1)))) ∧
    (∀ N bg bb md, bg - bb ≤ 2 ^ 31 →
      vote_candidate N bg bb md = bb + max md (spec_next_power_of_two (bg - bb))) ∧
    next_power_of_two 0 = 1 ∧
    (∀ x, x ≤ 2 ^ 31 → x ≤ next_power_of_two x ∧ ∃ j, next_power_of_two x = 2 ^ j) ∧
    (∀ x y, x ≤ 2 ^ 31 → x ≤ 2 ^ y → next_power_of_two x ≤ 2 ^ y) ∧
    (∀ x, 2 ^ 31 < x → next_power_of_two x = 0) ∧
    (∀ (lid : Option Nat) (mmr : Option Bytes) (sg : Option Nat) (bb bg md N : Nat),
      worker_votes (some bb) bg md N lid mmr sg =
        ((N == vote_candidate N bg bb md) && lid.isSome && mmr.isSome && sg.isSome) ∧
      worker_votes none bg md N lid mmr sg = false) ∧
    (∀ N, vote_candidate N 1 0 4 = 4) ∧ (∀ N, vote_candidate N 2 0 4 = 4) ∧
    (∀ N, vote_candidate N 3 0 4 = 4) ∧ (∀ N, vote_candidate N 4 0 4 = 4) ∧
    (∀ N, vote_candidate N 13 10 4 = 14) := by
  refine ⟨fun N bg bb md => rfl,
    fun N bg bb md h => vote_candidate_eq_spec N bg bb md h,
    rfl,
    fun x hx => ⟨?_, ?_⟩,
    fun x y hx h => ?_,
    fun x h => next_power_of_two_wrap x h,
    fun lid mmr sg bb bg md N => ⟨rfl, rfl⟩,
    fun N => rfl, fun N => rfl, fun N => rfl, fun N => rfl, fun N => rfl⟩
  · rw [next_power_of_two_eq_spec x hx]
    exact spec_next_power_of_two_ge x
  · rw [next_power_of_two_eq_spec x hx]
    exact spec_next_power_of_two_is_pow x
  · rw [next_power_of_two_eq_spec x hx]
    exact spec_next_power_of_two_min x y h

/-- C6 amended witness: the spec-formula agreement discharged at the concrete
cadence instance `(best_committed, best_primary_finalized) = (10, 13)`, and
the wrap case at `2^31 + 5`. -/
theorem claim6_amended_witness :
    vote_candidate 0 13 10 4 = 10 + max 4 (spec_next_power_of_two 3) ∧
    next_power_of_two (2 ^ 31 + 5) = 0 :=
  ⟨claim6_amended_vote_cadence.2.1 0 13 10 4 (by decide),
   claim6_amended_vote_cadence.2.2.2.2.2.1 (2 ^ 31 + 5) (by decide)⟩

/-- C7 counterexample: the candidate block is NOT monotone when both
`best_committed` and `best_primary_finalized` advance.  With `min_delta = 4`,
moving from `(best_committed, best_primary_finalized) = (0, 100)` (candidate
`128`) to `(100, 100)` (candidate `104`) strictly decreases the candidate even
though both inputs are non-decreasing and `bc ≤ bp` on both sides. -/
theorem claim7_counterexample :
    0 ≤ 100 ∧ 100 ≤ 100 ∧ 0 ≤ 100 ∧ 100 ≤ 100 ∧
    vote_candidate 0 100 0 4 = 128 ∧ vote_candidate 0 100 100 4 = 104 ∧
    ¬ vote_candidate 0 100 0 4 ≤ vote_candidate 0 100 100 4 := by
  refine ⟨by decide, by decide, by decide, by decide, by decide, by decide, by decide⟩

/-- C7 amended: for fixed `min_delta` and fixed `best_committed`, the
candidate block is non-decreasing as `best_primary_finalized` advances while
the difference to `best_committed` stays within `2^31`; past that point
`u32::next_power_of_two` wraps to 0 (release semantics) and the candidate
falls back to `best_committed + min_delta`. -/
theorem claim7_amended_monotone :
    (∀ N1 N2 bc md bp1 bp2, bp1 ≤ bp2 → bp2 - bc ≤ 2 ^ 31 →
      vote_candidate N1 bp1 bc md ≤ vote_candidate N2 bp2 bc md) ∧
    (∀ N bc md bp, 2 ^ 31 < bp - bc → vote_candidate N bp bc md = bc + md) := by
  constructor
  · intro N1 N2 bc md bp1 bp2 h12 hcap
    have h1 : bp1 - bc ≤ 2 ^ 31 := by omega
    rw [vote_candidate_eq_spec N1 bp1 bc md h1, vote_candidate_eq_spec N2 bp2 bc md hcap]
    have hm : spec_next_power_of_two (bp1 - bc) ≤ spec_next_power_of_two (bp2 - bc) :=
      spec_next_power_of_two_mono (by omega)
    exact Nat.add_le_add_left (max_le_max (le_refl md) hm) bc
  · intro N bc md bp h
    exact vote_candidate_wrap N bp bc md h

/-- C7 amended witness: a concrete in-range monotonicity instance and a
concrete wrap fall-back instance. -/
theorem claim7_amended_witness :
    vote_candidate 0 5 2 4 ≤ vote_candidate 0 9 2 4 ∧
    vote_candidate 0 (2 ^ 31 + 10) 0 7 = 0 + 7 :=
  ⟨claim7_amended_monotone.1 0 0 2 4 5 9 (by decide) (by decide),
   claim7_amended_monotone.2 0 0 7 (2 ^ 31 + 10) (by decide)⟩

theorem alist_get_mem {K V : Type} [DecidableEq K] :
    ∀ (l : List (K × V)) (k : K) (v : V), alist_get l k = some v → (k, v) ∈ l := by
  intro l
  induction l with
  | nil => intro k v h; simp [alist_get] at h
  | cons kv t ih =>
    intro k v h
    obtain ⟨k', v'⟩ := kv
    rw [alist_get] at h
    by_cases hk : k' = k
    · rw [if_pos hk] at h
      obtain rfl := Option.some.inj h
      subst hk
      simp
    · rw [if_neg hk] at h
      exact List.mem_cons_of_mem _ (ih k v h)

theorem alist_update_mem {K V : Type} [DecidableEq K] :
    ∀ (l : List (K × V)) (k : K) (v : V) (kv : K × V),
      kv ∈ alist_update l k v → kv = (k, v) ∨ kv ∈ l := by
  intro l
  induction l with
  | nil => intro k v kv h; simp [alist_update] at h; exact Or.inl h
  | cons kv0 t ih =>
    intro k v kv h
    obtain ⟨k', v'⟩ := kv0
    rw [alist_update] at h
    by_cases hk : k' = k
    · rw [if_pos hk] at h
      rcases List.mem_cons.mp h with h | h
      · exact Or.inl h
      · exact Or.inr (List.mem_cons_of_mem _ h)
    · rw [if_neg hk] at h
      rcases List.mem_cons.mp h with h | h
      · exact Or.inr (h ▸ List.mem_cons_self _ _)
      · rcases ih k v kv h with h' | h'
        · exact Or.inl h'
        · exact Or.inr (List.mem_cons_of_mem _ h')

theorem alist_remove_subset {K V : Type} [DecidableEq K] :
    ∀ (l : List (K × V)) (k : K) (kv : K × V), kv ∈ alist_remove l k → kv ∈ l := by
  intro l
  induction l with
  | nil => intro k kv h; simp [alist_remove] at h
  | cons kv0 t ih =>
    intro k kv h
    obtain ⟨k', v'⟩ := kv0
    rw [alist_remove] at h
    by_cases hk : k' = k
    · rw [if_pos hk] at h
      exact List.mem_cons_of_mem _ h
    · rw [if_neg hk] at h
      rcases List.mem_cons.mp h with h | h
      · exact h ▸ List.mem_cons_self _ _
      · exact List.mem_cons_of_mem _ (ih k kv h)

theorem rounds_nodup_of_reachable {K Id Sig : Type}
    [DecidableEq K] [DecidableEq Id] [DecidableEq Sig] :
    ∀ (r : Rounds K Id Sig), RoundsReachable r → RoundsNodup r := by
  intro r h
  induction h with
  | new authorities => intro kv hkv; simp [rounds_new] at hkv
  | add_vote r round vote _ ih =>
    intro kv hkv
    rw [rounds_add_vote] at hkv
    rcases alist_update_mem _ _ _ _ hkv with heq | hmem
    · subst heq
      show (tracker_add_vote ((alist_get r.rounds round).getD []) vote).1.Nodup
      have hbase : ((alist_get r.rounds round).getD []).Nodup := by
        cases hget : alist_get r.rounds round with
        | none => simp
        | some votes =>
          simpa using ih (round, votes) (alist_get_mem _ _ _ hget)
      rw [tracker_add_vote]
      by_cases hdup : vote ∈ (alist_get r.rounds round).getD []
      · simpa [hdup] using hbase
      · simp [hdup, List.nodup_append, hbase]
    · exact ih kv hmem
  | drop r round _ ih =>
    intro kv hkv
    rw [rounds_drop] at hkv
    cases hget : alist_get r.rounds round with
    | none =>
      rw [hget] at hkv
      exact ih kv hkv
    | some votes =>
      rw [hget] at hkv
      exact ih kv (alist_remove_subset _ _ _ hkv)

/-- C5: round threshold.  In every reachable `Rounds` state over a validator
set of size `n`, `is_done(round_key)` is true iff the round holds a tracker
with at least `threshold n = n − (n−1)/3` distinct `(authority_id, signature)`
pairs (by the reachability invariant the stored pairs are pairwise distinct, so
`dedup` does not drop any); in particular `threshold 3 = 3` and
`threshold 4 = 3`. -/
theorem claim5_round_threshold {K Id Sig : Type}
    [DecidableEq K] [DecidableEq Id] [DecidableEq Sig]
    (r : Rounds K Id Sig) (k : K) (h : RoundsReachable r) :
    (rounds_is_done r k = true ↔
      ∃ votes, alist_get r.rounds k = some votes ∧
        threshold r.authorities.length ≤ votes.dedup.length) ∧
    (∀ n, threshold n = n - (n - 1) / 3) ∧ threshold 3 = 3 ∧ threshold 4 = 3 := by
  refine ⟨?_, fun n => rfl, rfl, rfl⟩
  have hnodup := rounds_nodup_of_reachable r h
  rw [rounds_is_done]
  cases hget : alist_get r.rounds k with
  | none =>
    simp only []
    constructor
    · intro hfalse
      exact absurd hfalse (by simp)
    · rintro ⟨votes, hv, _⟩
      exact Option.noConfusion hv
  | some votes =>
    have hdedup : votes.dedup = votes :=
      List.Nodup.dedup (hnodup (k, votes) (alist_get_mem _ _ _ hget))
    simp only [tracker_is_done]
    constructor
    · intro hle
      exact ⟨votes, rfl, by rw [hdedup]; exact of_decide_eq_true hle⟩
    · rintro ⟨votes', hv, hlen⟩
      obtain rfl := Option.some.inj hv
      rw [hdedup] at hlen
      exact decide_eq_true hlen

/-- C5 witness: a concrete reachable state with three authorities and one
vote, discharging the reachability hypothesis by the constructors. -/
theorem claim5_witness :
    threshold 3 = 3 ∧ threshold 4 = 3 ∧
    rounds_is_done (rounds_add_vote (@rounds_new Nat Nat Nat [0, 1, 2]) 7 (0, 5)).1 7
      = false := by
  have happ := claim5_round_threshold
    (rounds_add_vote (@rounds_new Nat Nat Nat [0, 1, 2]) 7 (0, 5)).1 7
    (RoundsReachable.add_vote _ 7 (0, 5) (RoundsReachable.new [0, 1, 2]))
  refine ⟨happ.2.2.1, happ.2.2.2, ?_⟩
  have hiff := happ.1
  by_contra hcon
  have htrue : rounds_is_done
      (rounds_add_vote (@rounds_new Nat Nat Nat [0, 1, 2]) 7 (0, 5)).1 7 = true := by
    revert hcon
    decide
  obtain ⟨votes, hv, hlen⟩ := hiff.mp htrue
  have hv' : votes = [(0, 5)] := by
    have : alist_get (rounds_add_vote (@rounds_new Nat Nat Nat [0, 1, 2]) 7 (0, 5)).1.rounds 7
        = some [(0, 5)] := by decide
    rw [this] at hv
    exact (Option.some.inj hv).symm
  subst hv'
  revert hlen
  decide

/-- C9: equivocation handling.  Votes are stored in insertion order (a fresh
pair is appended at the end); when a round holds two pairs with the same
authority id but different signatures, `drop` puts into that authority's slot
of the positional vector the signature of the pair that appears first, i.e.
the one added first; and `is_done` counts every stored pair, the equivocating
ones included. -/
theorem claim9_equivocation {K Id Sig : Type}
    [DecidableEq K] [DecidableEq Id] [DecidableEq Sig]
    (r : Rounds K Id Sig) (k : K) (votes pre rest : List (Id × Sig)) (id : Id) (x y : Sig)
    (hget : alist_get r.rounds k = some votes)
    (hvotes : votes = pre ++ (id, x) :: rest)
    (hpre : ∀ p ∈ pre, p.1 ≠ id)
    (hy : (id, y) ∈ rest) (hxy : y ≠ x) :
    (∀ (votes' : List (Id × Sig)) (v : Id × Sig), v ∉ votes' →
      tracker_add_vote votes' v = (votes' ++ [v], true)) ∧
    (rounds_drop r k).2 =
      some (r.authorities.map
        (fun aid => (votes.find? (fun v => decide (v.1 = aid))).map Prod.snd)) ∧
    (∀ j : Nat, r.authorities[j]? = some id →
      ((rounds_drop r k).2.getD [])[j]? = some (some x)) ∧
    rounds_is_done r k = decide (threshold r.authorities.length ≤ votes.length) := by
  have hdrop : (rounds_drop r k).2 =
      some (r.authorities.map
        (fun aid => (votes.find? (fun v => decide (v.1 = aid))).map Prod.snd)) := by
    rw [rounds_drop, hget]
  refine ⟨?_, hdrop, ?_, ?_⟩
  · intro votes' v hv
    rw [tracker_add_vote, if_neg hv]
  · intro j hj
    rw [hdrop]
    simp only [Option.getD_some]
    rw [List.getElem?_map, hj]
    have hfind : votes.find? (fun v => decide (v.1 = id)) = some (id, x) := by
      rw [hvotes, List.find?_append]
      have hnone : pre.find? (fun v => decide (v.1 = id)) = none :=
        List.find?_eq_none.mpr (fun p hp => by simpa using hpre p hp)
      rw [hnone]
      show ((id, x) :: rest).find? (fun v => decide (v.1 = id)) = some (id, x)
      exact List.find?_cons_of_pos _ (by simp)
    show some ((votes.find? (fun v => decide (v.1 = id))).map Prod.snd) = some (some x)
    rw [hfind]
    rfl
  · rw [rounds_is_done, hget]
    rfl

/-- C9 witness: two equivocating votes from authority 0; the positional slot
holds the first one and both count toward the threshold. -/
theorem claim9_witness :
    ((rounds_drop
        (rounds_add_vote (rounds_add_vote (@rounds_new Nat Nat Nat [0, 1]) 9 (0, 5)).1 9 (0, 6)).1
        9).2.getD [])[0]? = some (some 5) ∧
    rounds_is_done
        (rounds_add_vote (rounds_add_vote (@rounds_new Nat Nat Nat [0, 1]) 9 (0, 5)).1 9 (0, 6)).1
        9 = decide (threshold 2 ≤ 2) := by
  have happ := claim9_equivocation
    (rounds_add_vote (rounds_add_vote (@rounds_new Nat Nat Nat [0, 1]) 9 (0, 5)).1 9 (0, 6)).1
    9 [(0, 5), (0, 6)] [] [(0, 6)] 0 5 6
    (by decide) (by decide) (by decide) (by decide) (by decide)
  exact ⟨happ.2.2.1 0 (by decide), happ.2.2.2⟩

theorem verify_signed_ok_elim {Pub Sig : Type} (kverify : Pub → Sig → Bytes → Bool)
    (encodeC : Commitment → Bytes) (c : Client Pub) (s : SignedCommitment Sig) (cm : Commitment)
    (h : verify_signed kverify encodeC c s = Except.ok cm) :
    cm = s.commitment ∧
    s.commitment.validator_set_id = c.active_set.id ∧
    best_known c < s.commitment.block_number ∧
    s.signatures.length = c.active_set.validators.length ∧
    signature_threshold c ≤ no_of_signatures s ∧
    signature_threshold c ≤ valid_count kverify encodeC c s := by
  rw [verify_signed] at h
  by_cases h1 : c.active_set.id ≠ s.commitment.validator_set_id
  · rw [if_pos h1] at h
    simp at h
  · rw [if_neg h1] at h
    by_cases h2 : s.commitment.block_number ≤ best_known c
    · rw [if_pos h2] at h
      simp at h
    · rw [if_neg h2] at h
      by_cases h3 : s.signatures.length ≠ c.active_set.validators.length
      · rw [if_pos h3] at h
        simp at h
      · rw [if_neg h3] at h
        rw [verify_signatures] at h
        by_cases h4 : no_of_signatures s < signature_threshold c
        · rw [if_pos h4] at h
          simp at h
        · rw [if_neg h4] at h
          by_cases h5 : valid_count kverify encodeC c s < signature_threshold c
          · rw [if_pos h5] at h
            simp at h
          · rw [if_neg h5] at h
            simp only [] at h
            refine ⟨(Except.ok.inj h).symm, by omega, by omega, by omega, by omega, by omega⟩

theorem verify_signed_eq_ok {Pub Sig : Type} (kverify : Pub → Sig → Bytes → Bool)
    (encodeC : Commitment → Bytes) (c : Client Pub) (s : SignedCommitment Sig)
    (h1 : s.commitment.validator_set_id = c.active_set.id)
    (h2 : best_known c < s.commitment.block_number)
    (h3 : s.signatures.length = c.active_set.validators.length)
    (h4 : signature_threshold c ≤ no_of_signatures s)
    (h5 : signature_threshold c ≤ valid_count kverify encodeC c s) :
    verify_signed kverify encodeC c s = Except.ok s.commitment := by
  rw [verify_signed, if_neg (by omega), if_neg (by omega), if_neg (by omega),
    verify_signatures, if_neg (by omega), if_neg (by omega)]

/-- C3: import ok-iff and first-failing-check errors.  `import` returns Ok
exactly when the validator-set id matches, the block is not stale, the
signature-vector length equals the set size, the present-signature count
reaches `⌊2n/3⌋+1`, and the valid-signature count reaches `⌊2n/3⌋+1`;
otherwise the first failing check determines the error, in the order
`InvalidValidatorSet`, `StaleBlock`, `InsufficientSignatures` (length),
`InsufficientSignatures` (count), `InsufficientValidSignatures`. -/
theorem claim3_import_checks {Pub Sig : Type} (kverify : Pub → Sig → Bytes → Bool)
    (encodeC : Commitment → Bytes) (c : Client Pub) (s : SignedCommitment Sig) :
    ((client_import kverify encodeC c s).2 = Except.ok () ↔
      (s.commitment.validator_set_id = c.active_set.id ∧
       best_known c < s.commitment.block_number ∧
       s.signatures.length = c.active_set.validators.length ∧
       signature_threshold c ≤ no_of_signatures s ∧
       signature_threshold c ≤ valid_count kverify encodeC c s)) ∧
    signature_threshold c = 2 * c.active_set.validators.length / 3 + 1 ∧
    (s.commitment.validator_set_id ≠ c.active_set.id →
      (client_import kverify encodeC c s).2 =
        Except.error (Error.InvalidValidatorSet s.commitment.validator_set_id c.active_set.id)) ∧
    (s.commitment.validator_set_id = c.active_set.id →
      s.commitment.block_number ≤ best_known c →
      (client_import kverify encodeC c s).2 =
        Except.error (Error.StaleBlock s.commitment.block_number (best_known c))) ∧
    (s.commitment.validator_set_id = c.active_set.id →
      best_known c < s.commitment.block_number →
      s.signatures.length ≠ c.active_set.validators.length →
      (client_import kverify encodeC c s).2 =
        Except.error (Error.InsufficientSignatures s.signatures.length
          c.active_set.validators.length)) ∧
    (s.commitment.validator_set_id = c.active_set.id →
      best_known c < s.commitment.block_number →
      s.signatures.length = c.active_set.validators.length →
      no_of_signatures s < signature_threshold c →
      (client_import kverify encodeC c s).2 =
        Except.error (Error.InsufficientSignatures (no_of_signatures s)
          (signature_threshold c))) ∧
    (s.commitment.validator_set_id = c.active_set.id →
      best_known c < s.commitment.block_number →
      s.signatures.length = c.active_set.validators.length →
      signature_threshold c ≤ no_of_signatures s →
      valid_count kverify encodeC c s < signature_threshold c →
      (client_import kverify encodeC c s).2 =
        Except.error (Error.InsufficientValidSignatures (valid_count kverify encodeC c s)
          (signature_threshold c))) := by
  refine ⟨⟨?_, ?_⟩, rfl, ?_, ?_, ?_, ?_, ?_⟩
  · intro hok
    rw [client_import] at hok
    cases hv : verify_signed kverify encodeC c s with
    | error e => rw [hv] at hok; simp at hok
    | ok cm =>
      obtain ⟨_, h1, h2, h3, h4, h5⟩ := verify_signed_ok_elim kverify encodeC c s cm hv
      exact ⟨h1, h2, h3, h4, h5⟩
  · rintro ⟨h1, h2, h3, h4, h5⟩
    rw [client_import, verify_signed_eq_ok kverify encodeC c s h1 h2 h3 h4 h5]
  · intro h1
    rw [client_import, verify_signed, if_pos (by omega)]
  · intro h1 h2
    rw [client_import, verify_signed, if_neg (by omega), if_pos h2]
  · intro h1 h2 h3
    rw [client_import, verify_signed, if_neg (by omega), if_neg (by omega), if_pos h3]
  · intro h1 h2 h3 h4
    rw [client_import, verify_signed, if_neg (by omega), if_neg (by omega), if_neg (by omega),
      verify_signatures, if_pos h4]
  · intro h1 h2 h3 h4 h5
    rw [client_import, verify_signed, if_neg (by omega), if_neg (by omega), if_neg (by omega),
      verify_signatures, if_neg (by omega), if_pos h5]

/-- C3 witness: a wrong validator-set id on a fresh single-validator client
yields `InvalidValidatorSet`, and a valid single-signature import is Ok. -/
theorem claim3_witness :
    (client_import (fun (_ : Nat) (_ : Nat) _ => true) (fun _ => [])
        (client_new 7)
        { commitment := { payload := [], block_number := 1, validator_set_id := 3,
                          is_set_transition_block := false },
          signatures := [some 0] }).2 =
      Except.error (Error.InvalidValidatorSet 3 0) ∧
    (client_import (fun (_ : Nat) (_ : Nat) _ => true) (fun _ => [])
        (client_new 7)
        { commitment := { payload := [], block_number := 1, validator_set_id := 0,
                          is_set_transition_block := false },
          signatures := [some 0] }).2 = Except.ok () := by
  constructor
  · exact (claim3_import_checks (fun _ _ _ => true) (fun _ => []) (client_new 7) _).2.2.1
      (by decide)
  · exact ((claim3_import_checks (fun _ _ _ => true) (fun _ => []) (client_new 7) _).1).mpr
      ⟨by decide, by decide, by decide, by decide, by decide⟩

theorem client_inv_of_reachable {Pub Sig : Type} (kverify : Pub → Sig → Bytes → Bool)
    (encodeC : Commitment → Bytes) (alice : Pub) :
    ∀ (c : Client Pub), ClientReachable kverify encodeC alice c → ClientInv c := by
  intro c h
  induction h with
  | new => intro lc hlc; simp [client_new] at hlc
  | step c s _ ih =>
    intro lc hlc
    cases hv : verify_signed kverify encodeC c s with
    | error e =>
      rw [client_import, hv] at hlc ⊢
      exact ih lc hlc
    | ok cm =>
      rw [client_import, hv] at hlc ⊢
      obtain ⟨hcm, h1, _⟩ := verify_signed_ok_elim kverify encodeC c s cm hv
      have hlc2 : lc = cm := (Option.some.inj hlc).symm
      rw [hlc2, hcm, h1]

/-- C4: light-client monotonicity.  A failed import leaves the client
unchanged; a successful import stores the imported commitment as
`latest_commitment`, and relative to any previously stored commitment the
block number strictly increases, hence (with the set id held fixed by the
client) the `(validator_set_id, block_number)` order strictly increases. -/
theorem claim4_monotonicity {Pub Sig : Type} (kverify : Pub → Sig → Bytes → Bool)
    (encodeC : Commitment → Bytes) (alice : Pub) (c : Client Pub) (s : SignedCommitment Sig)
    (h : ClientReachable kverify encodeC alice c) :
    (∀ e, (client_import kverify encodeC c s).2 = Except.error e →
      (client_import kverify encodeC c s).1 = c) ∧
    ((client_import kverify encodeC c s).2 = Except.ok () →
      (client_import kverify encodeC c s).1.latest_commitment = some s.commitment ∧
      ∀ lc, c.latest_commitment = some lc →
        lc.block_number < s.commitment.block_number ∧ commitment_lt lc s.commitment) := by
  cases hv : verify_signed kverify encodeC c s with
  | error e0 =>
    constructor
    · intro e _
      rw [client_import, hv]
    · intro hok
      rw [client_import, hv] at hok
      simp at hok
  | ok cm =>
    obtain ⟨hcm, h1, h2, _⟩ := verify_signed_ok_elim kverify encodeC c s cm hv
    constructor
    · intro e he
      rw [client_import, hv] at he
      simp at he
    · intro _
      constructor
      · rw [client_import, hv, hcm]
      · intro lc hlc
        have hbk : best_known c = lc.block_number := by
          rw [best_known, hlc]
          rfl
        have hblock : lc.block_number < s.commitment.block_number := by omega
        have hset : lc.validator_set_id = s.commitment.validator_set_id := by
          have := client_inv_of_reachable kverify encodeC alice c h lc hlc
          omega
        exact ⟨hblock, Or.inr ⟨hset, hblock⟩⟩

/-- C4 witness: two successive successful imports (blocks 1 then 2) on a fresh
single-validator client; the second strictly increases the stored commitment. -/
theorem claim4_witness :
    (client_import (fun (_ : Nat) (_ : Nat) _ => true) (fun _ => [])
        (client_import (fun (_ : Nat) (_ : Nat) _ => true) (fun _ => []) (client_new 7)
          { commitment := { payload := [], block_number := 1, validator_set_id := 0,
                            is_set_transition_block := false },
            signatures := [some 0] }).1
        { commitment := { payload := [], block_number := 2, validator_set_id := 0,
                          is_set_transition_block := false },
          signatures := [some 0] }).2 = Except.ok () ∧
    commitment_lt
      { payload := [], block_number := 1, validator_set_id := 0, is_set_transition_block := false }
      { payload := [], block_number := 2, validator_set_id := 0,
        is_set_transition_block := false } := by
  have happ := claim4_monotonicity (fun (_ : Nat) (_ : Nat) _ => true) (fun _ => []) 7
    (client_import (fun (_ : Nat) (_ : Nat) _ => true) (fun _ => []) (client_new 7)
      { commitment := { payload := [], block_number := 1, validator_set_id := 0,
                        is_set_transition_block := false },
        signatures := [some 0] }).1
    { commitment := { payload := [], block_number := 2, validator_set_id := 0,
                      is_set_transition_block := false },
      signatures := [some 0] }
    (ClientReachable.step _ _ ClientReachable.new)
  have hok : (client_import (fun (_ : Nat) (_ : Nat) _ => true) (fun _ => [])
      (client_import (fun (_ : Nat) (_ : Nat) _ => true) (fun _ => []) (client_new 7)
        { commitment := { payload := [], block_number := 1, validator_set_id := 0,
                          is_set_transition_block := false },
          signatures := [some 0] }).1
      { commitment := { payload := [], block_number := 2, validator_set_id := 0,
                        is_set_transition_block := false },
        signatures := [some 0] }).2 = Except.ok () := rfl
  refine ⟨hok, ?_⟩
  exact ((happ.2 hok).2
    { payload := [], block_number := 1, validator_set_id := 0, is_set_transition_block := false }
    (by decide)).2

/-- C8 counterexample: an import of a block-0 commitment does NOT always fail
with `StaleBlock{0,0}` — with a mismatched validator-set id the earlier check
fires and the error is `InvalidValidatorSet` instead. -/
theorem claim8_counterexample :
    (client_import (fun (_ : Nat) (_ : Nat) _ => true) (fun _ => []) (client_new 7)
        { commitment := { payload := [], block_number := 0, validator_set_id := 1,
                          is_set_transition_block := false },
          signatures := [some 0] }).2 =
      Except.error (Error.InvalidValidatorSet 1 0) ∧
    Error.InvalidValidatorSet 1 0 ≠ Error.StaleBlock 0 0 := by
  exact ⟨rfl, by decide⟩

/-- C8 amended: whenever the validator-set id matches, importing a commitment
with `block_number = 0` fails with `StaleBlock{got: 0, best_known}` where
`best_known` is the latest imported block number or the default 0; in
particular with `latest_commitment = None` the staleness check is not skipped
and the error is `StaleBlock{0, 0}`. -/
theorem claim8_block_zero_stale {Pub Sig : Type} (kverify : Pub → Sig → Bytes → Bool)
    (encodeC : Commitment → Bytes) (c : Client Pub) (s : SignedCommitment Sig)
    (h0 : s.commitment.block_number = 0)
    (h1 : s.commitment.validator_set_id = c.active_set.id) :
    (client_import kverify encodeC c s).2 =
      Except.error (Error.StaleBlock 0 (best_known c)) ∧
    (c.latest_commitment = none →
      (client_import kverify encodeC c s).2 = Except.error (Error.StaleBlock 0 0)) := by
  have hmain : (client_import kverify encodeC c s).2 =
      Except.error (Error.StaleBlock 0 (best_known c)) := by
    rw [client_import, verify_signed, if_neg (by omega), if_pos (by omega), h0]
  refine ⟨hmain, ?_⟩
  intro hnone
  rw [hmain, best_known, hnone]
  rfl

/-- C8 amended witness: block 0 on a fresh client with the matching set id. -/
theorem claim8_witness :
    (client_import (fun (_ : Nat) (_ : Nat) _ => true) (fun _ => []) (client_new 7)
        { commitment := { payload := [], block_number := 0, validator_set_id := 0,
                          is_set_transition_block := false },
          signatures := [some 0] }).2 = Except.error (Error.StaleBlock 0 0) :=
  (claim8_block_zero_stale (fun (_ : Nat) (_ : Nat) _ => true) (fun _ => []) (client_new 7)
      { commitment := { payload := [], block_number := 0, validator_set_id := 0,
                        is_set_transition_block := false },
        signatures := [some 0] }
      (by decide) (by decide)).2 rfl
